import Mathlib

/-!
Verification of the decimal-arithmetic core and the greeting logic of the
browser-nodejs-es6 repository.  The repository itself ships only the module
wiring (`main.js`, the README-quoted `app.js`) and calls into a decimal
library that is not part of the sources, so the decimal type below is
modelled from the specification; the greeting function is taken verbatim
from the `app.js` code quoted in the README.
-/

namespace BigDec

/-- Numeric value of a decimal digit character. -/
def digitVal (c : Char) : Nat := c.toNat - 48

/-- Interpret a most-significant-first list of digit characters as a base-10
natural number. -/
def digitsToNat (ds : List Char) : Nat :=
  ds.foldl (fun a c => a * 10 + digitVal c) 0

/-- Modelled from the spec: the Decimal data model of section 3 — a sign
(`neg` true means negative), an arbitrary-size unscaled value (the digit
sequence with the decimal point removed) and a non-negative scale (number of
digits after the decimal point). -/
structure Decimal where
  neg : Bool
  unscaled : Nat
  scale : Nat
deriving DecidableEq

/-- The exact rational value represented by a Decimal:
`sign × unscaled × 10 ^ (-scale)`.  Equality of Decimals "by normalized
value" is equality of these rationals. -/
def val (d : Decimal) : ℚ :=
  (if d.neg then -(d.unscaled : ℚ) else (d.unscaled : ℚ)) / 10 ^ d.scale

/-- Split an optional leading sign character off a character list, returning
the sign (true = negative) and the remaining body. -/
def stripSign (cs : List Char) : Bool × List Char :=
  match cs with
  | [] => (false, [])
  | c :: rest =>
    if c = '-' then (true, rest)
    else if c = '+' then (false, rest)
    else (false, cs)

/-- Validity of the body of a decimal literal (the part after the optional
sign): every character is a digit or a decimal point, at most one decimal
point, and at least one digit. -/
def validBody (body : List Char) : Prop :=
  (∀ c ∈ body, c.isDigit = true ∨ c = '.') ∧
  body.countP (fun c => c == '.') ≤ 1 ∧
  ∃ c ∈ body, c.isDigit = true

instance (body : List Char) : Decidable (validBody body) := by
  unfold validBody; infer_instance

/-- Modelled from the spec: the parser of section 4.1.  Accepts an optional
sign, digits, an optional decimal point and more digits; produces a Decimal
whose scale is the number of digits after the point and whose unscaled value
is the digit sequence with the point removed read in base 10.  `none` is the
`InvalidFormat` failure, propagated to the caller. -/
def parse (s : String) : Option Decimal :=
  let p := stripSign s.data
  if validBody p.2 then
    some ⟨p.1, digitsToNat (p.2.filter Char.isDigit),
          (p.2.dropWhile (fun c => c != '.')).length - 1⟩
  else none

/-- Modelled from the spec: the addition algorithm of section 4.2 — align
both operands to the larger scale by multiplying the unscaled value of the
smaller-scale operand by a power of ten, then add or subtract the aligned
magnitudes following sign-magnitude rules, keeping the common scale. -/
def add (a b : Decimal) : Decimal :=
  let s := max a.scale b.scale
  let ua := a.unscaled * 10 ^ (s - a.scale)
  let ub := b.unscaled * 10 ^ (s - b.scale)
  match a.neg, b.neg with
  | false, false => ⟨false, ua + ub, s⟩
  | true,  true  => ⟨true, ua + ub, s⟩
  | false, true  => if ub ≤ ua then ⟨false, ua - ub, s⟩ else ⟨true, ub - ua, s⟩
  | true,  false => if ua ≤ ub then ⟨false, ub - ua, s⟩ else ⟨true, ua - ub, s⟩

/-- Modelled from the spec: the `preciseAdd` operation that `main.js` calls
on the (absent) app module is exact decimal addition. -/
def preciseAdd (a b : Decimal) : Decimal := add a b

/-- Fuel-driven digit extraction, least significant digit first.  The fuel
argument makes the recursion structural, so that the definition computes by
kernel reduction; `natDigitsRevAux_eq` shows it agrees with `Nat.digits 10`
whenever the fuel is sufficient. -/
def natDigitsRevAux : Nat → Nat → List Char
  | _, 0 => []
  | 0, _ + 1 => []
  | f + 1, n + 1 =>
    Char.ofNat ((n + 1) % 10 + 48) :: natDigitsRevAux f ((n + 1) / 10)

/-- Decimal digit characters of a natural number, least significant first;
empty for zero. -/
def natDigitsRev (n : Nat) : List Char := natDigitsRevAux n n

/-- Decimal digit characters of a natural number, most significant first,
with no leading zeros; the single digit 0 for zero. -/
def natToDigits (n : Nat) : List Char :=
  if n = 0 then ['0'] else (natDigitsRev n).reverse

/-- The fractional digit characters of an unscaled value `u` at scale `s`:
the digits of `u % 10 ^ s` left-padded with zeros to exactly `s` digits. -/
def fracDigits (u s : Nat) : List Char :=
  List.replicate (s - (natDigitsRev (u % 10 ^ s)).length) '0' ++
    (natDigitsRev (u % 10 ^ s)).reverse

/-- The characters contributed by an optional sign. -/
def sgnChars : Option Char → List Char
  | none => []
  | some c => [c]

/-- The characters contributed by an optional fractional part: a decimal
point followed by its digits. -/
def fracChars : Option (List Char) → List Char
  | none => []
  | some f => '.' :: f

/-- Assemble a decimal literal from an optional sign character, the integer
part digits, and the optional fractional part digits. -/
def buildStr (sgn : Option Char) (ip : List Char) (fp : Option (List Char)) :
    List Char :=
  sgnChars sgn ++ ip ++ fracChars fp

/-- Modelled from the spec: the renderer of section 4.3 — canonical decimal
literal: sign (omitted if the value is not negative), integer part with no
extraneous leading zeros, decimal point and exactly `scale` fractional
digits (omitted when the scale is zero), no exponential notation. -/
def render (d : Decimal) : String :=
  ⟨buildStr (if d.neg = true ∧ d.unscaled ≠ 0 then some '-' else none)
    (natToDigits (d.unscaled / 10 ^ d.scale))
    (if d.scale = 0 then none else some (fracDigits d.unscaled d.scale))⟩

/-- The full pipeline of `main.js`: parse both literals, add precisely,
render the sum; a parse failure propagates. -/
def preciseAddStr (s₁ s₂ : String) : Option String :=
  (parse s₁).bind fun a => (parse s₂).map fun b => render (preciseAdd a b)

/-- The greeting function of `app.js`, quoted in the README:
`function greeting(name) { return Hello-comma-space-name }`. -/
def greeting (name : String) : String := "Hello, " ++ name

/-- The first string logged by `main.js`: `App.greeting('ES6')`. -/
def mainGreeting : String := greeting "ES6"

/-- The character for a decimal digit below ten. -/
def digitChar10 (d : Nat) : Char := Char.ofNat (d + 48)

/-- Malformedness of a parser input exactly as the specification's failure
list words it: a character outside the digit, point and sign set, more than
one decimal point, or no digits at all. -/
def specMalformed (s : String) : Prop :=
  (∃ c ∈ s.data, ¬(c.isDigit = true ∨ c = '.' ∨ c = '+' ∨ c = '-')) ∨
  1 < s.data.countP (fun c => c == '.') ∨
  (∀ c ∈ s.data, ¬c.isDigit = true)

instance (s : String) : Decidable (specMalformed s) := by
  unfold specMalformed; infer_instance

theorem foldl_digit_step (l : List Char) (m : Nat) :
    l.foldl (fun a c => a * 10 + digitVal c) m =
      m * 10 ^ l.length + digitsToNat l := by
  induction l generalizing m with
  | nil => simp [digitsToNat]
  | cons c t ih =>
    have h0 : digitsToNat (c :: t) = t.foldl (fun a c => a * 10 + digitVal c)
        (digitVal c) := by
      simp [digitsToNat]
    rw [List.foldl_cons, ih, h0, ih (digitVal c), List.length_cons, pow_succ]
    ring

theorem digitsToNat_append (a b : List Char) :
    digitsToNat (a ++ b) = digitsToNat a * 10 ^ b.length + digitsToNat b := by
  unfold digitsToNat
  rw [List.foldl_append]
  exact foldl_digit_step b _

theorem digitsToNat_replicate_zero (k : Nat) :
    digitsToNat (List.replicate k '0') = 0 := by
  induction k with
  | zero => rfl
  | succ n ih =>
    rw [List.replicate_succ]
    show List.foldl (fun a c => a * 10 + digitVal c) (0 * 10 + digitVal '0')
      (List.replicate n '0') = 0
    have : 0 * 10 + digitVal '0' = 0 := by decide
    rw [this]
    exact ih

theorem digitsToNat_pad (k : Nat) (l : List Char) :
    digitsToNat (List.replicate k '0' ++ l) = digitsToNat l := by
  rw [digitsToNat_append, digitsToNat_replicate_zero]
  ring

theorem natDigitsRevAux_eq (f n : Nat) (h : n ≤ f) :
    natDigitsRevAux f n = (Nat.digits 10 n).map digitChar10 := by
  induction f generalizing n with
  | zero =>
    interval_cases n
    simp [natDigitsRevAux]
  | succ f ih =>
    cases n with
    | zero => simp [natDigitsRevAux]
    | succ m =>
      rw [show natDigitsRevAux (f + 1) (m + 1) =
        Char.ofNat ((m + 1) % 10 + 48) :: natDigitsRevAux f ((m + 1) / 10)
        from rfl]
      have hd : (m + 1) / 10 ≤ f := by
        have := Nat.div_le_self (m + 1) 10
        have h2 : (m + 1) / 10 < m + 1 := Nat.div_lt_self (Nat.succ_pos m)
          (by norm_num)
        omega
      rw [ih _ hd, Nat.digits_def' (by norm_num : (1:ℕ) < 10) (Nat.succ_pos m)]
      rfl

theorem natDigitsRev_eq (n : Nat) :
    natDigitsRev n = (Nat.digits 10 n).map digitChar10 :=
  natDigitsRevAux_eq n n le_rfl

theorem digitVal_digitChar10 {d : Nat} (h : d < 10) :
    digitVal (digitChar10 d) = d := by
  interval_cases d <;> decide

theorem isDigit_digitChar10 {d : Nat} (h : d < 10) :
    (digitChar10 d).isDigit = true := by
  interval_cases d <;> decide

theorem digitChar10_ne_zero {d : Nat} (h : d < 10) (h0 : d ≠ 0) :
    digitChar10 d ≠ '0' := by
  interval_cases d <;> simp_all <;> decide

theorem natDigitsRev_all_digit (n : Nat) :
    ∀ c ∈ natDigitsRev n, c.isDigit = true := by
  intro c hc
  rw [natDigitsRev_eq] at hc
  obtain ⟨d, hd, rfl⟩ := List.mem_map.mp hc
  exact isDigit_digitChar10 (Nat.digits_lt_base (by norm_num) hd)

theorem digitsToNat_map_reverse (l : List ℕ) (hl : ∀ d ∈ l, d < 10) :
    digitsToNat ((l.map digitChar10).reverse) = Nat.ofDigits 10 l := by
  induction l with
  | nil => rfl
  | cons d t ih =>
    rw [List.map_cons, List.reverse_cons, digitsToNat_append]
    have hd : digitsToNat [digitChar10 d] = d := by
      show 0 * 10 + digitVal (digitChar10 d) = d
      rw [digitVal_digitChar10 (hl d (by simp))]
      ring
    rw [hd, ih (fun x hx => hl x (by simp [hx]))]
    simp [Nat.ofDigits]
    ring

theorem digitsToNat_natDigitsRev (n : Nat) :
    digitsToNat ((natDigitsRev n).reverse) = n := by
  rw [natDigitsRev_eq,
    digitsToNat_map_reverse _ (fun d hd => Nat.digits_lt_base (by norm_num) hd),
    Nat.ofDigits_digits]

theorem natDigitsRev_length_le {n k : Nat} (h : n < 10 ^ k) :
    (natDigitsRev n).length ≤ k := by
  rw [natDigitsRev_eq, List.length_map]
  rcases eq_or_ne n 0 with rfl | hn
  · simp
  · rw [Nat.digits_len 10 n (by norm_num) hn]
    have := Nat.log_lt_of_lt_pow hn h
    omega

theorem natToDigits_all_digit (n : Nat) :
    ∀ c ∈ natToDigits n, c.isDigit = true := by
  intro c hc
  unfold natToDigits at hc
  split at hc
  · simp at hc; subst hc; decide
  · exact natDigitsRev_all_digit n c (List.mem_reverse.mp hc)

theorem natToDigits_ne_nil (n : Nat) : natToDigits n ≠ [] := by
  unfold natToDigits
  split
  · simp
  · next h =>
    simp only [ne_eq, List.reverse_eq_nil_iff]
    rw [natDigitsRev_eq]
    simp only [List.map_eq_nil_iff]
    exact Nat.digits_ne_nil_iff_ne_zero.mpr h

theorem digitsToNat_natToDigits (n : Nat) :
    digitsToNat (natToDigits n) = n := by
  unfold natToDigits
  split
  · next h => subst h; decide
  · exact digitsToNat_natDigitsRev n

theorem natToDigits_head_zero {n : Nat}
    (h : (natToDigits n).head? = some '0') : n = 0 := by
  by_contra hn
  unfold natToDigits at h
  rw [if_neg hn, natDigitsRev_eq, ← List.map_reverse, List.head?_map,
    List.head?_reverse, List.getLast?_eq_getLast _
      (Nat.digits_ne_nil_iff_ne_zero.mpr hn)] at h
  simp only [Option.map_some', Option.some.injEq] at h
  have hlast := Nat.getLast_digit_ne_zero 10 hn
  have hlt : (Nat.digits 10 n).getLast
      (Nat.digits_ne_nil_iff_ne_zero.mpr hn) < 10 :=
    Nat.digits_lt_base (by norm_num) (List.getLast_mem _)
  exact digitChar10_ne_zero hlt hlast h

theorem fracDigits_length (u s : Nat) : (fracDigits u s).length = s := by
  unfold fracDigits
  have hlt : u % 10 ^ s < 10 ^ s := Nat.mod_lt _ (Nat.pos_pow_of_pos s (by norm_num))
  have hle : (natDigitsRev (u % 10 ^ s)).length ≤ s := natDigitsRev_length_le hlt
  rw [List.length_append, List.length_replicate, List.length_reverse]
  omega

theorem fracDigits_all_digit (u s : Nat) :
    ∀ c ∈ fracDigits u s, c.isDigit = true := by
  intro c hc
  unfold fracDigits at hc
  rcases List.mem_append.mp hc with h | h
  · have := List.eq_of_mem_replicate h
    subst this; decide
  · exact natDigitsRev_all_digit _ c (List.mem_reverse.mp h)

theorem digitsToNat_fracDigits (u s : Nat) :
    digitsToNat (fracDigits u s) = u % 10 ^ s := by
  unfold fracDigits
  rw [digitsToNat_pad, digitsToNat_natDigitsRev]

theorem isDigit_ne_signs {c : Char} (h : c.isDigit = true) :
    c ≠ '-' ∧ c ≠ '+' ∧ c ≠ '.' := by
  refine ⟨?_, ?_, ?_⟩ <;> · rintro rfl; simp [Char.isDigit] at h

theorem stripSign_neg (xs : List Char) : stripSign ('-' :: xs) = (true, xs) := by
  simp [stripSign]

theorem stripSign_pos (xs : List Char) : stripSign ('+' :: xs) = (false, xs) := by
  simp [stripSign]

theorem stripSign_other {c : Char} (xs : List Char) (h1 : c ≠ '-')
    (h2 : c ≠ '+') : stripSign (c :: xs) = (false, c :: xs) := by
  simp [stripSign, h1, h2]

theorem dropWhile_append_all {p : Char → Bool} {l1 : List Char}
    (l2 : List Char) (h : ∀ c ∈ l1, p c = true) :
    (l1 ++ l2).dropWhile p = l2.dropWhile p := by
  induction l1 with
  | nil => rfl
  | cons c t ih =>
    rw [List.cons_append, List.dropWhile_cons_of_pos (h c (by simp))]
    exact ih (fun x hx => h x (by simp [hx]))

theorem validBody_build (ip : List Char) (fp : Option (List Char))
    (hip : ∀ c ∈ ip, c.isDigit = true)
    (hfp : ∀ f, fp = some f → ∀ c ∈ f, c.isDigit = true)
    (hne : ip ++ fp.getD [] ≠ []) :
    validBody (ip ++ fracChars fp) := by
  refine ⟨?_, ?_, ?_⟩
  · intro c hc
    rcases List.mem_append.mp hc with h | h
    · exact Or.inl (hip c h)
    · rcases fp with _ | f
      · simp [fracChars] at h
      · rw [show fracChars (some f) = '.' :: f from rfl] at h
        rcases List.mem_cons.mp h with rfl | h'
        · exact Or.inr rfl
        · exact Or.inl (hfp f rfl c h')
  · rw [List.countP_append]
    have h1 : ip.countP (fun c => c == '.') = 0 :=
      List.countP_eq_zero.mpr fun a ha => by
        simp [beq_iff_eq, (isDigit_ne_signs (hip a ha)).2.2]
    rcases fp with _ | f
    · simp [fracChars, h1]
    · have h2 : f.countP (fun c => c == '.') = 0 :=
        List.countP_eq_zero.mpr fun a ha => by
          simp [beq_iff_eq, (isDigit_ne_signs (hfp f rfl a ha)).2.2]
      simp [fracChars, List.countP_cons, h1, h2]
  · rcases ip with _ | ⟨c, ip'⟩
    · rcases fp with _ | f
      · simp at hne
      · rcases f with _ | ⟨c, f'⟩
        · simp at hne
        · exact ⟨c, by simp [fracChars], hfp _ rfl c (by simp)⟩
    · exact ⟨c, by simp, hip c (by simp)⟩

theorem filter_build (ip : List Char) (fp : Option (List Char))
    (hip : ∀ c ∈ ip, c.isDigit = true)
    (hfp : ∀ f, fp = some f → ∀ c ∈ f, c.isDigit = true) :
    (ip ++ fracChars fp).filter Char.isDigit = ip ++ fp.getD [] := by
  rw [List.filter_append, List.filter_eq_self.mpr hip]
  rcases fp with _ | f
  · simp [fracChars]
  · have : ('.').isDigit = false := by decide
    simp [fracChars, this, List.filter_eq_self.mpr (hfp f rfl)]

theorem scale_build (ip : List Char) (fp : Option (List Char))
    (hip : ∀ c ∈ ip, c.isDigit = true) :
    ((ip ++ fracChars fp).dropWhile (fun c => c != '.')).length - 1 =
      (fp.getD []).length := by
  have hne : ∀ c ∈ ip, (c != '.') = true := fun c hc => by
    simp [bne_iff_ne, (isDigit_ne_signs (hip c hc)).2.2]
  rw [dropWhile_append_all _ hne]
  rcases fp with _ | f
  · simp [fracChars]
  · rw [show fracChars (some f) = '.' :: f from rfl,
      List.dropWhile_cons_of_neg (by decide)]
    simp

theorem stripSign_build (sgn : Option Char) (ip : List Char)
    (fp : Option (List Char))
    (hs : sgn = none ∨ sgn = some '+' ∨ sgn = some '-')
    (hip : ∀ c ∈ ip, c.isDigit = true) :
    stripSign (buildStr sgn ip fp) =
      (decide (sgn = some '-'), ip ++ fracChars fp) := by
  rcases hs with rfl | rfl | rfl
  · rw [show buildStr none ip fp = ip ++ fracChars fp by
      simp [buildStr, sgnChars]]
    rcases ip with _ | ⟨c, ip'⟩
    · rcases fp with _ | f
      · simp [fracChars, stripSign]
      · rw [show ([] : List Char) ++ fracChars (some f) = '.' :: f from rfl,
          stripSign_other f (by decide) (by decide)]
        simp [fracChars]
    · have hd := isDigit_ne_signs (hip c (by simp))
      rw [show (c :: ip') ++ fracChars fp = c :: (ip' ++ fracChars fp) from rfl,
        stripSign_other _ hd.1 hd.2.1]
      simp
  · rw [show buildStr (some '+') ip fp = '+' :: (ip ++ fracChars fp) from rfl,
      stripSign_pos]
    simp
  · rw [show buildStr (some '-') ip fp = '-' :: (ip ++ fracChars fp) from rfl,
      stripSign_neg]
    simp

theorem parse_build (sgn : Option Char) (ip : List Char)
    (fp : Option (List Char))
    (hs : sgn = none ∨ sgn = some '+' ∨ sgn = some '-')
    (hip : ∀ c ∈ ip, c.isDigit = true)
    (hfp : ∀ f, fp = some f → ∀ c ∈ f, c.isDigit = true)
    (hne : ip ++ fp.getD [] ≠ []) :
    parse ⟨buildStr sgn ip fp⟩ =
      some ⟨decide (sgn = some '-'), digitsToNat (ip ++ fp.getD []),
        (fp.getD []).length⟩ := by
  have hdata : (⟨buildStr sgn ip fp⟩ : String).data = buildStr sgn ip fp := rfl
  unfold parse
  rw [hdata, stripSign_build sgn ip fp hs hip]
  rw [if_pos (by exact validBody_build ip fp hip hfp hne)]
  rw [show ((decide (sgn = some '-'), ip ++ fracChars fp)).2 =
    ip ++ fracChars fp from rfl]
  rw [filter_build ip fp hip hfp, scale_build ip fp hip]

theorem aligned_div (u k s : Nat) (h : k ≤ s) :
    (u : ℚ) * 10 ^ (s - k) / 10 ^ s = (u : ℚ) / 10 ^ k := by
  have h10 : (10 : ℚ) ^ (s - k) * 10 ^ k = 10 ^ s := by
    rw [← pow_add, Nat.sub_add_cancel h]
  rw [div_eq_div_iff (by positivity) (by positivity), mul_assoc, h10]

theorem add_scale (a b : Decimal) : (add a b).scale = max a.scale b.scale := by
  rcases a with ⟨na, ua, sa⟩
  rcases b with ⟨nb, ub, sb⟩
  cases na <;> cases nb <;> simp only [add] <;> split <;> rfl

theorem val_add (a b : Decimal) : val (add a b) = val a + val b := by
  rcases a with ⟨na, ua, sa⟩
  rcases b with ⟨nb, ub, sb⟩
  have hsa : sa ≤ max sa sb := le_max_left _ _
  have hsb : sb ≤ max sa sb := le_max_right _ _
  have A := aligned_div ua sa (max sa sb) hsa
  have B := aligned_div ub sb (max sa sb) hsb
  cases na <;> cases nb <;>
    simp only [add, val, Bool.false_eq_true, if_false, if_true, reduceIte]
  · push_cast
    rw [add_div, A, B]
  · split
    · next h =>
      simp only [reduceIte]
      rw [Nat.cast_sub h]
      push_cast at *
      rw [sub_div, A, B]
      ring
    · next h =>
      simp only [reduceIte]
      rw [Nat.cast_sub (le_of_not_le h)]
      push_cast at *
      rw [neg_div, sub_div, A, B]
      ring
  · split
    · next h =>
      simp only [reduceIte]
      rw [Nat.cast_sub h]
      push_cast at *
      rw [sub_div, A, B]
      ring
    · next h =>
      simp only [reduceIte]
      rw [Nat.cast_sub (le_of_not_le h)]
      push_cast at *
      rw [neg_div, sub_div, A, B]
      ring
  · push_cast
    rw [neg_div, add_div, A, B]
    ring

theorem render_eq_build (n : Bool) (u s : Nat) :
    render ⟨n, u, s⟩ =
      ⟨buildStr (if n = true ∧ u ≠ 0 then some '-' else none)
        (natToDigits (u / 10 ^ s))
        (if s = 0 then none else some (fracDigits u s))⟩ := rfl

theorem parse_render (d : Decimal) :
    parse (render d) =
      some ⟨decide (d.neg = true ∧ d.unscaled ≠ 0), d.unscaled, d.scale⟩ := by
  rcases d with ⟨n, u, s⟩
  have hs : (if n = true ∧ u ≠ 0 then some '-' else none) = none ∨
      (if n = true ∧ u ≠ 0 then some '-' else none) = some '+' ∨
      (if n = true ∧ u ≠ 0 then some '-' else none) = some '-' := by
    split
    · exact Or.inr (Or.inr rfl)
    · exact Or.inl rfl
  have hfp : ∀ f, (if s = 0 then none else some (fracDigits u s)) = some f →
      ∀ c ∈ f, c.isDigit = true := by
    intro f hf
    split at hf
    · exact absurd hf (by simp)
    · rw [← Option.some.inj hf]
      exact fracDigits_all_digit u s
  have hne : natToDigits (u / 10 ^ s) ++
      (if s = 0 then none else some (fracDigits u s)).getD [] ≠ [] := by
    intro h
    exact natToDigits_ne_nil _ (List.append_eq_nil.mp h).1
  rw [render_eq_build,
    parse_build _ _ _ hs (natToDigits_all_digit _) hfp hne]
  have e1 : decide ((if n = true ∧ u ≠ 0 then some '-' else none) = some '-') =
      decide (n = true ∧ u ≠ 0) := by
    by_cases h : n = true ∧ u ≠ 0 <;> simp [h]
  have e2 : digitsToNat (natToDigits (u / 10 ^ s) ++
      (if s = 0 then none else some (fracDigits u s)).getD []) = u := by
    by_cases h : s = 0
    · subst h
      simp [digitsToNat_natToDigits]
    · rw [if_neg h]
      rw [show (some (fracDigits u s)).getD [] = fracDigits u s from rfl]
      rw [digitsToNat_append, fracDigits_length, digitsToNat_natToDigits,
        digitsToNat_fracDigits]
      rw [Nat.mul_comm]
      exact Nat.div_add_mod u (10 ^ s)
  have e3 : ((if s = 0 then none else some (fracDigits u s)).getD []).length
      = s := by
    by_cases h : s = 0
    · subst h; simp
    · rw [if_neg h]
      exact fracDigits_length u s
  rw [e1, e2, e3]

theorem val_decide_sign (n : Bool) (u s : Nat) :
    val ⟨decide (n = true ∧ u ≠ 0), u, s⟩ = val ⟨n, u, s⟩ := by
  cases n with
  | false => simp
  | true =>
    by_cases hu : u = 0
    · subst hu; simp [val]
    · simp [hu]

theorem render_chars (d : Decimal) :
    ∀ c ∈ (render d).data, c.isDigit = true ∨ c = '.' ∨ c = '-' := by
  rcases d with ⟨n, u, s⟩
  rw [render_eq_build]
  intro c hc
  rcases List.mem_append.mp hc with h | h
  · rcases List.mem_append.mp h with h' | h'
    · split at h'
      · rw [show sgnChars (some '-') = ['-'] from rfl] at h'
        simp at h'
        exact Or.inr (Or.inr h')
      · simp [sgnChars] at h'
    · exact Or.inl (natToDigits_all_digit _ c h')
  · split at h
    · simp [fracChars] at h
    · rw [show fracChars (some (fracDigits u s)) = '.' :: fracDigits u s
        from rfl] at h
      rcases List.mem_cons.mp h with rfl | h'
      · exact Or.inr (Or.inl rfl)
      · exact Or.inl (fracDigits_all_digit u s c h')

theorem render_no_point {d : Decimal} (h : d.scale = 0) :
    ∀ c ∈ (render d).data, c ≠ '.' := by
  rcases d with ⟨n, u, s⟩
  rw [render_eq_build]
  intro c hc
  simp only at h
  subst h
  rw [if_pos rfl] at hc
  rcases List.mem_append.mp hc with h' | h'
  · rcases List.mem_append.mp h' with h'' | h''
    · split at h''
      · rw [show sgnChars (some '-') = ['-'] from rfl] at h''
        simp at h''
        subst h''; decide
      · simp [sgnChars] at h''
    · exact (isDigit_ne_signs (natToDigits_all_digit _ c h'')).2.2
  · simp [fracChars] at h'

theorem render_no_sign {d : Decimal} (h : d.neg = false) :
    ∀ c ∈ (render d).data, c ≠ '-' ∧ c ≠ '+' := by
  rcases d with ⟨n, u, s⟩
  simp only at h
  subst h
  rw [render_eq_build]
  have hcond : ¬(false = true ∧ u ≠ 0) := by simp
  rw [if_neg hcond]
  intro c hc
  rcases List.mem_append.mp hc with h' | h'
  · rcases List.mem_append.mp h' with h'' | h''
    · simp [sgnChars] at h''
    · have := isDigit_ne_signs (natToDigits_all_digit _ c h'')
      exact ⟨this.1, this.2.1⟩
  · split at h'
    · simp [fracChars] at h'
    · rw [show fracChars (some (fracDigits u s)) = '.' :: fracDigits u s
        from rfl] at h'
      rcases List.mem_cons.mp h' with rfl | h''
      · exact ⟨by decide, by decide⟩
      · have := isDigit_ne_signs (fracDigits_all_digit u s c h'')
        exact ⟨this.1, this.2.1⟩

theorem render_frac_len {d : Decimal} (h : d.scale ≠ 0) :
    ((render d).data.dropWhile (fun c => c != '.')).length = d.scale + 1 := by
  rcases d with ⟨n, u, s⟩
  simp only at h
  rw [render_eq_build]
  rw [show (⟨buildStr (if n = true ∧ u ≠ 0 then some '-' else none)
    (natToDigits (u / 10 ^ s)) (if s = 0 then none else
      some (fracDigits u s))⟩ : String).data = buildStr _ _ _ from rfl]
  unfold buildStr
  rw [if_neg h]
  have hall : ∀ c ∈ sgnChars (if n = true ∧ u ≠ 0 then some '-' else none) ++
      natToDigits (u / 10 ^ s), (c != '.') = true := by
    intro c hc
    rcases List.mem_append.mp hc with h' | h'
    · split at h'
      · rw [show sgnChars (some '-') = ['-'] from rfl] at h'
        simp at h'
        subst h'; decide
      · simp [sgnChars] at h'
    · simp [bne_iff_ne,
        (isDigit_ne_signs (natToDigits_all_digit _ c h')).2.2]
  rw [dropWhile_append_all _ hall,
    show fracChars (some (fracDigits u s)) = '.' :: fracDigits u s from rfl,
    List.dropWhile_cons_of_neg (by decide)]
  rw [List.length_cons, fracDigits_length]

theorem render_no_leading_zero {d : Decimal}
    (h : ((render d).data.dropWhile (fun c => c == '-')).head? = some '0') :
    d.unscaled / 10 ^ d.scale = 0 := by
  rcases d with ⟨n, u, s⟩
  rw [render_eq_build] at h
  rw [show (⟨buildStr (if n = true ∧ u ≠ 0 then some '-' else none)
    (natToDigits (u / 10 ^ s)) (if s = 0 then none else
      some (fracDigits u s))⟩ : String).data = buildStr _ _ _ from rfl] at h
  unfold buildStr at h
  have hsgn : ∀ c ∈ sgnChars (if n = true ∧ u ≠ 0 then some '-' else none),
      (c == '-') = true := by
    intro c hc
    split at hc
    · rw [show sgnChars (some '-') = ['-'] from rfl] at hc
      simp at hc
      subst hc; decide
    · simp [sgnChars] at hc
  rw [List.append_assoc, dropWhile_append_all _ hsgn] at h
  obtain ⟨c, t, hct⟩ := List.exists_cons_of_ne_nil (natToDigits_ne_nil (u / 10 ^ s))
  rw [hct, List.cons_append, List.dropWhile_cons_of_neg (by
    have hd := natToDigits_all_digit (u / 10 ^ s) c (by rw [hct]; simp)
    simp [beq_iff_eq, (isDigit_ne_signs hd).1])] at h
  rw [List.head?_cons] at h
  have hc0 : c = '0' := Option.some.inj h
  apply natToDigits_head_zero
  rw [hct, hc0]
  rfl

theorem parse_eq_none_iff (s : String) :
    parse s = none ↔ ¬validBody (stripSign s.data).2 := by
  simp only [parse]
  split
  · next h => simp [h]
  · next h => simp [h]

theorem validBody_sign_iff (c : Char) (rest : List Char)
    (hc : c = '+' ∨ c = '-') :
    validBody rest ↔
      ((∀ x ∈ c :: rest, x.isDigit = true ∨ x = '.' ∨ x = '+' ∨ x = '-') ∧
       (c :: rest).countP (fun x => x == '.') ≤ 1 ∧
       (∃ x ∈ c :: rest, x.isDigit = true) ∧
       (∀ x ∈ (c :: rest).tail, x ≠ '+' ∧ x ≠ '-')) := by
  have hcd : c.isDigit = false := by rcases hc with rfl | rfl <;> decide
  have hcp : (c == '.') = false := by rcases hc with rfl | rfl <;> decide
  have hcall : c.isDigit = true ∨ c = '.' ∨ c = '+' ∨ c = '-' := by
    rcases hc with rfl | rfl
    · exact Or.inr (Or.inr (Or.inl rfl))
    · exact Or.inr (Or.inr (Or.inr rfl))
  unfold validBody
  constructor
  · rintro ⟨V1, V2, V3⟩
    refine ⟨?_, ?_, ?_, ?_⟩
    · intro x hx
      rcases List.mem_cons.mp hx with rfl | hx'
      · exact hcall
      · rcases V1 x hx' with h | h
        · exact Or.inl h
        · exact Or.inr (Or.inl h)
    · rw [List.countP_cons, hcp]
      simpa using V2
    · obtain ⟨x, hx, hd⟩ := V3
      exact ⟨x, List.mem_cons_of_mem _ hx, hd⟩
    · intro x hx
      rw [List.tail_cons] at hx
      rcases V1 x hx with h | h
      · exact ⟨(isDigit_ne_signs h).2.1, (isDigit_ne_signs h).1⟩
      · subst h; exact ⟨by decide, by decide⟩
  · rintro ⟨A, B, C, D⟩
    refine ⟨?_, ?_, ?_⟩
    · intro x hx
      have hD := D x (by rw [List.tail_cons]; exact hx)
      rcases A x (List.mem_cons_of_mem _ hx) with h | h | h | h
      · exact Or.inl h
      · exact Or.inr h
      · exact absurd h hD.1
      · exact absurd h hD.2
    · rw [List.countP_cons, hcp] at B
      simpa using B
    · obtain ⟨x, hx, hd⟩ := C
      rcases List.mem_cons.mp hx with rfl | hx'
      · rw [hcd] at hd
        exact absurd hd (by simp)
      · exact ⟨x, hx', hd⟩

theorem validBody_nosign_iff (c : Char) (rest : List Char)
    (h1 : c ≠ '+') (h2 : c ≠ '-') :
    validBody (c :: rest) ↔
      ((∀ x ∈ c :: rest, x.isDigit = true ∨ x = '.' ∨ x = '+' ∨ x = '-') ∧
       (c :: rest).countP (fun x => x == '.') ≤ 1 ∧
       (∃ x ∈ c :: rest, x.isDigit = true) ∧
       (∀ x ∈ (c :: rest).tail, x ≠ '+' ∧ x ≠ '-')) := by
  unfold validBody
  constructor
  · rintro ⟨V1, V2, V3⟩
    refine ⟨?_, V2, V3, ?_⟩
    · intro x hx
      rcases V1 x hx with h | h
      · exact Or.inl h
      · exact Or.inr (Or.inl h)
    · intro x hx
      rw [List.tail_cons] at hx
      rcases V1 x (List.mem_cons_of_mem _ hx) with h | h
      · exact ⟨(isDigit_ne_signs h).2.1, (isDigit_ne_signs h).1⟩
      · subst h; exact ⟨by decide, by decide⟩
  · rintro ⟨A, B, C, D⟩
    refine ⟨?_, B, C⟩
    intro x hx
    rcases List.mem_cons.mp hx with rfl | hx'
    · rcases A x (List.mem_cons_self _ _) with h | h | h | h
      · exact Or.inl h
      · exact Or.inr h
      · exact absurd h h1
      · exact absurd h h2
    · have hD := D x (by rw [List.tail_cons]; exact hx')
      rcases A x (List.mem_cons_of_mem _ hx') with h | h | h | h
      · exact Or.inl h
      · exact Or.inr h
      · exact absurd h hD.1
      · exact absurd h hD.2

theorem validBody_stripSign_iff (cs : List Char) :
    validBody (stripSign cs).2 ↔
      ((∀ x ∈ cs, x.isDigit = true ∨ x = '.' ∨ x = '+' ∨ x = '-') ∧
       cs.countP (fun x => x == '.') ≤ 1 ∧
       (∃ x ∈ cs, x.isDigit = true) ∧
       (∀ x ∈ cs.tail, x ≠ '+' ∧ x ≠ '-')) := by
  rcases cs with _ | ⟨c, rest⟩
  · simp [stripSign, validBody]
  · by_cases h1 : c = '-'
    · subst h1
      rw [stripSign_neg]
      exact validBody_sign_iff '-' rest (Or.inr rfl)
    · by_cases h2 : c = '+'
      · subst h2
        rw [stripSign_pos]
        exact validBody_sign_iff '+' rest (Or.inl rfl)
      · rw [stripSign_other rest h1 h2]
        exact validBody_nosign_iff c rest h2 h1

/-- A sign character occurring anywhere other than the first position. -/
def misplacedSign (s : String) : Prop :=
  ∃ c ∈ s.data.tail, c = '+' ∨ c = '-'

instance (s : String) : Decidable (misplacedSign s) := by
  unfold misplacedSign; infer_instance

theorem parse_none_characterization (s : String) :
    parse s = none ↔ specMalformed s ∨ misplacedSign s := by
  rw [parse_eq_none_iff, validBody_stripSign_iff]
  unfold specMalformed misplacedSign
  constructor
  · intro h
    by_cases hA : ∀ c ∈ s.data, c.isDigit = true ∨ c = '.' ∨ c = '+' ∨ c = '-'
    swap
    · push_neg at hA
      obtain ⟨c, hc, hbad⟩ := hA
      exact Or.inl (Or.inl ⟨c, hc, by tauto⟩)
    by_cases hB : s.data.countP (fun c => c == '.') ≤ 1
    swap
    · exact Or.inl (Or.inr (Or.inl (by omega)))
    by_cases hC : ∃ c ∈ s.data, c.isDigit = true
    swap
    · refine Or.inl (Or.inr (Or.inr ?_))
      intro c hc hd
      exact hC ⟨c, hc, hd⟩
    by_cases hD : ∀ c ∈ s.data.tail, c ≠ '+' ∧ c ≠ '-'
    · exact absurd ⟨hA, hB, hC, hD⟩ h
    · push_neg at hD
      obtain ⟨c, hc, hcc⟩ := hD
      refine Or.inr ⟨c, hc, ?_⟩
      by_cases h' : c = '+'
      · exact Or.inl h'
      · exact Or.inr (hcc h')
  · rintro h ⟨hA, hB, hC, hD⟩
    rcases h with (h | h | h) | h
    · obtain ⟨c, hc, hbad⟩ := h
      exact hbad (hA c hc)
    · omega
    · obtain ⟨c, hc, hd⟩ := hC
      exact h c hc hd
    · obtain ⟨c, hc, hs⟩ := h
      rcases hs with rfl | rfl
      · exact (hD _ hc).1 rfl
      · exact (hD _ hc).2 rfl

theorem render_char_ne_exp (d : Decimal) :
    ∀ c ∈ (render d).data, c ≠ 'e' ∧ c ≠ 'E' := by
  intro c hc
  rcases render_chars d c hc with h | h | h
  · exact ⟨by rintro rfl; exact absurd h (by decide),
      by rintro rfl; exact absurd h (by decide)⟩
  · subst h; exact ⟨by decide, by decide⟩
  · subst h; exact ⟨by decide, by decide⟩

/-- C1: adding the Decimal parsed from "1.1" and the Decimal parsed from
"1.3" and rendering the result yields exactly the string "2.4". -/
theorem c1_motivating_example : preciseAddStr "1.1" "1.3" = some "2.4" := by
  decide

/-- C2: every string made of an optional sign, digits, an optional decimal
point and more digits parses successfully to a Decimal whose scale is the
number of digits after the point and whose unscaled value is the digit
sequence with the point removed, read as a base-10 integer. -/
theorem c2_parse_wellformed (sgn : Option Char) (ip : List Char)
    (fp : Option (List Char))
    (hs : sgn = none ∨ sgn = some '+' ∨ sgn = some '-')
    (hip : ∀ c ∈ ip, c.isDigit = true)
    (hfp : ∀ f, fp = some f → ∀ c ∈ f, c.isDigit = true)
    (hne : ip ++ fp.getD [] ≠ []) :
    parse ⟨buildStr sgn ip fp⟩ =
      some ⟨decide (sgn = some '-'), digitsToNat (ip ++ fp.getD []),
        (fp.getD []).length⟩ :=
  parse_build sgn ip fp hs hip hfp hne

/-- Witness for C2 at the spec's example "-0.050": it parses to the Decimal
with negative sign, unscaled value 50 and scale 3. -/
theorem c2_parse_wellformed_witness :
    parse ⟨buildStr (some '-') ['0'] (some ['0', '5', '0'])⟩ =
      some ⟨decide ((some '-' : Option Char) = some '-'),
        digitsToNat (['0'] ++ ((some ['0', '5', '0'] :
          Option (List Char)).getD [])),
        (((some ['0', '5', '0'] : Option (List Char)).getD [])).length⟩ :=
  c2_parse_wellformed (some '-') ['0'] (some ['0', '5', '0'])
    (Or.inr (Or.inr rfl)) (by decide)
    (fun f hf => by rw [← Option.some.inj hf]; decide) (by decide)

/-- C3 counterexample: the string "1-2" contains no character outside
[0-9.+-], has no decimal point and contains digits — so it is not malformed
in the sense of the claim's list — yet parsing fails, because the sign
character sits in the middle of the string. -/
theorem c3_counterexample : parse "1-2" = none ∧ ¬specMalformed "1-2" := by
  decide

/-- C3 (amended): parsing fails with InvalidFormat exactly when the string
contains a character outside [0-9.+-] (in particular any whitespace, which
is never trimmed), contains more than one decimal point, contains no digits
at all, or contains a sign character at any position other than the first;
in particular parse "abc" and parse "1.2.3" fail, and the failure is
propagated through the whole parse-add-render pipeline, never recovered. -/
theorem c3_amended_parse_failure :
    (∀ s : String, parse s = none ↔ specMalformed s ∨ misplacedSign s) ∧
    parse "abc" = none ∧ parse "1.2.3" = none ∧
    (∀ t : String, preciseAddStr "1.2.3" t = none) := by
  refine ⟨parse_none_characterization, by decide, by decide, ?_⟩
  intro t
  unfold preciseAddStr
  rw [show parse "1.2.3" = none by decide]
  rfl

/-- C4: addition never rounds — the result's scale is the maximum of the two
operand scales, and the result's exact rational value is the sum of the two
operands' exact rational values, so no digit is ever dropped. -/
theorem c4_add_exact (a b : Decimal) :
    (add a b).scale = max a.scale b.scale ∧ val (add a b) = val a + val b :=
  ⟨add_scale a b, val_add a b⟩

/-- C5: adding the Decimal parsed from "-5" and the Decimal parsed from "3"
(opposite signs, handled by sign-magnitude subtraction) and rendering the
result yields exactly the string "-2". -/
theorem c5_opposite_signs : preciseAddStr "-5" "3" = some "-2" := by
  decide

/-- C6: addition is commutative up to equality of normalized values. -/
theorem c6_add_comm (a b : Decimal) : val (add a b) = val (add b a) := by
  rw [val_add, val_add]
  ring

/-- C7: addition is associative up to equality of normalized values. -/
theorem c7_add_assoc (a b c : Decimal) :
    val (add (add a b) c) = val (add a (add b c)) := by
  rw [val_add, val_add, val_add, val_add]
  ring

/-- C8: the Decimal parsed from "0" is an identity for addition, up to
equality of normalized values. -/
theorem c8_zero_identity (a z : Decimal) (hz : parse "0" = some z) :
    val (add a z) = val a := by
  have h0 : parse "0" = some ⟨false, 0, 0⟩ := by decide
  rw [h0] at hz
  rw [← Option.some.inj hz, val_add]
  simp [val]

/-- Witness for C8 at the Decimal -0.07. -/
theorem c8_zero_identity_witness :
    val (add ⟨true, 7, 2⟩ ⟨false, 0, 0⟩) = val ⟨true, 7, 2⟩ :=
  c8_zero_identity ⟨true, 7, 2⟩ ⟨false, 0, 0⟩ (by decide)

/-- C9: for every string accepted by the parser, rendering the parsed
Decimal re-parses to an equal value, and the rendered string is a canonical
decimal literal: no exponential-notation character, no decimal point when
the scale is zero, no sign character when the value is not negative, exactly
`scale` digits after the decimal point, and a leading zero digit only when
the integer part is actually zero. -/
theorem c9_roundtrip_canonical (s : String) (d : Decimal)
    (h : parse s = some d) :
    (∃ d', parse (render d) = some d' ∧ val d' = val d) ∧
    (∀ c ∈ (render d).data, c ≠ 'e' ∧ c ≠ 'E') ∧
    (d.scale = 0 → ∀ c ∈ (render d).data, c ≠ '.') ∧
    (d.neg = false → ∀ c ∈ (render d).data, c ≠ '-' ∧ c ≠ '+') ∧
    (d.scale ≠ 0 →
      ((render d).data.dropWhile (fun c => c != '.')).length = d.scale + 1) ∧
    (((render d).data.dropWhile (fun c => c == '-')).head? = some '0' →
      d.unscaled / 10 ^ d.scale = 0) := by
  refine ⟨⟨⟨decide (d.neg = true ∧ d.unscaled ≠ 0), d.unscaled, d.scale⟩,
    parse_render d, val_decide_sign d.neg d.unscaled d.scale⟩,
    render_char_ne_exp d,
    fun h0 => render_no_point h0,
    fun hn => render_no_sign hn,
    fun hs => render_frac_len hs,
    fun hh => render_no_leading_zero hh⟩

/-- Witness for C9 at the spec's example "0.050", which parses to the
Decimal with unscaled value 50 and scale 3. -/
theorem c9_roundtrip_canonical_witness :
    (∃ d', parse (render ⟨false, 50, 3⟩) = some d' ∧
      val d' = val ⟨false, 50, 3⟩) ∧
    (∀ c ∈ (render (⟨false, 50, 3⟩ : Decimal)).data, c ≠ 'e' ∧ c ≠ 'E') ∧
    ((⟨false, 50, 3⟩ : Decimal).scale = 0 →
      ∀ c ∈ (render (⟨false, 50, 3⟩ : Decimal)).data, c ≠ '.') ∧
    ((⟨false, 50, 3⟩ : Decimal).neg = false →
      ∀ c ∈ (render (⟨false, 50, 3⟩ : Decimal)).data,
        c ≠ '-' ∧ c ≠ '+') ∧
    ((⟨false, 50, 3⟩ : Decimal).scale ≠ 0 →
      ((render (⟨false, 50, 3⟩ : Decimal)).data.dropWhile
        (fun c => c != '.')).length = (⟨false, 50, 3⟩ : Decimal).scale + 1) ∧
    (((render (⟨false, 50, 3⟩ : Decimal)).data.dropWhile
        (fun c => c == '-')).head? = some '0' →
      (⟨false, 50, 3⟩ : Decimal).unscaled /
        10 ^ (⟨false, 50, 3⟩ : Decimal).scale = 0) :=
  c9_roundtrip_canonical "0.050" ⟨false, 50, 3⟩ (by decide)

/-- C10: the greeting function exported by app.js concatenates "Hello, "
with its argument, and main.js logs greeting applied to "ES6", which is
"Hello, ES6". -/
theorem c10_greeting :
    (∀ name : String, greeting name = "Hello, " ++ name) ∧
    mainGreeting = "Hello, ES6" :=
  ⟨fun _ => rfl, rfl⟩

end BigDec
